import Mathlib

/-!
# Secret Handshake (snej/secret-handshake-capnp): shallow embedding

The repository ships its test suite (`src/SecretHandshakeTests.cc`) for a
Secret-Handshake implementation (`SecretHandshake.hh/.cc`, `SecretStream.hh/.cc`)
whose sources are not in the tree.  The data model and the operations below are
therefore modelled from the specification (`spec.md`), which fixes the wire
sizes, the key-derivation lattice, the record framing and the state-machine
contract; the test file is used as the authority wherever it pins behaviour
(in particular, `CryptoBox` operating on the caller's `Session` by reference).

The spec leaves the choice of cryptographic primitives abstract ("any
conforming library suffices").  We instantiate them with a small executable
family that has the sizes and the algebraic laws the protocol relies on:
a commutative Diffie-Hellman over `Nat` exponentiation mod a prime, and a
digest-based MAC/signature/AEAD built from an injective-enough absorb function.
-/

namespace SHS

/-- A byte is modelled as a `Nat`; canonical byte lists have entries `< 256`. -/
abbrev Bytes := List Nat

/-- Little-endian value of a byte list. -/
def fromBytes : Bytes → Nat
  | [] => 0
  | b :: rest => b + 256 * fromBytes rest

/-- Little-endian encoding of `n` into exactly `len` bytes (truncating). -/
def toBytesN : Nat → Nat → Bytes
  | _, 0 => []
  | n, len + 1 => n % 256 :: toBytesN (n / 256) len

/-- Every byte of the list is a valid byte value. -/
def IsBytes (l : Bytes) : Prop := ∀ b ∈ l, b < 256

instance : DecidablePred IsBytes := fun l => List.decidableBAll _ l

/-! ## Toy conforming primitives

`Modelled from the spec:` the spec names the primitives abstractly (SHA-512
truncated, HMAC-SHA-512 truncated, X25519-class agreement, Ed25519-class
signatures, secretbox-style AEAD) and says any conforming implementation
suffices.  The family below has the required output sizes and laws. -/
/-- Modulus of the digest sponge. -/
def HP : Nat := 1000003

/-- Absorb a byte list into a single `Nat` digest state. -/
def absorb (l : Bytes) : Nat := l.foldl (fun a b => (a * 256 + b + 1) % HP) 0

/-- Modelled from the spec: 32-byte cryptographic hash (stands in for truncated SHA-512). -/
def hashB (m : Bytes) : Bytes := toBytesN (absorb m) 32

/-- Modelled from the spec: 32-byte keyed MAC (stands in for truncated HMAC-SHA-512). -/
def hmacB (key msg : Bytes) : Bytes := toBytesN (absorb (key ++ msg)) 32

/-- DH group modulus (a prime). -/
def DHP : Nat := 251

/-- DH group generator. -/
def DHG : Nat := 7

/-- Modelled from the spec: public key of a key-agreement/signing scalar (32 bytes). -/
def curvePub (x : Nat) : Bytes := toBytesN (DHG ^ x % DHP) 32

/-- Modelled from the spec: shared secret of our scalar and the peer's public key (32 bytes). -/
def curveShared (x : Nat) (pk : Bytes) : Bytes := toBytesN (fromBytes pk ^ x % DHP) 32

/-- Modelled from the spec: 64-byte detached signature of `m` by the scalar `sk`. -/
def signB (sk : Nat) (m : Bytes) : Bytes :=
  toBytesN (absorb (curvePub sk ++ m)) 32 ++ toBytesN (absorb m) 32

/-- Modelled from the spec: verify a 64-byte signature against a public key. -/
def verifyB (pk : Bytes) (sig m : Bytes) : Bool :=
  sig = toBytesN (absorb (pk ++ m)) 32 ++ toBytesN (absorb m) 32

/-- Modelled from the spec: AEAD seal — a 16-byte tag over (key, nonce, ad, plaintext)
followed by the plaintext body. -/
def sealBox (key nonce ad m : Bytes) : Bytes :=
  toBytesN (absorb (key ++ nonce ++ ad ++ m)) 16 ++ m

/-- Modelled from the spec: AEAD open — checks the 16-byte tag, returns the body. -/
def openBox (key nonce ad : Bytes) (c : Bytes) : Option Bytes :=
  if 16 ≤ c.length ∧ c.take 16 = toBytesN (absorb (key ++ nonce ++ ad ++ c.drop 16)) 16 then
    some (c.drop 16)
  else none

/-! ## Nonces -/
/-- Modelled from the spec: nonces are big-endian integers incremented by 1 per use. -/
def incrNonce (l : Bytes) : Bytes :=
  (toBytesN ((fromBytes l.reverse + 1) % 256 ^ l.length) l.length).reverse

/-- The all-zero 24-byte nonce used for the handshake boxes. -/
def zeroNonce : Bytes := List.replicate 24 0

/-! ## Sessions and the handshake state machine

Modelled from the spec: §3 (data model), §4.2 (message schemas, key-derivation
lattice, state-machine contract, validation) and §6 (construction APIs).  The
implementation sources are absent from the tree; the tests exercise exactly
this contract. -/
/-- The output of a successful handshake (spec §3). -/
structure Session where
  encryptionKey : Bytes
  decryptionKey : Bytes
  encryptionNonce : Bytes
  decryptionNonce : Bytes
  peerPublicKey : Bytes
deriving DecidableEq, Repr

inductive ClientStep
  | send1 | recv2 | send3 | recv4 | cdone | cfailed
deriving DecidableEq, Repr

inductive ServerStep
  | recv1 | send2 | recv3 | send4 | sdone | sfailed
deriving DecidableEq, Repr

/-- Modelled from the spec: client-side handshake progress state (§3, §4.2). -/
structure ClientHandshake where
  appID : Bytes
  sk : Nat
  eph : Nat
  serverPk : Bytes
  serverEphPk : Bytes
  step : ClientStep
deriving DecidableEq, Repr

/-- Modelled from the spec: server-side handshake progress state (§3, §4.2). -/
structure ServerHandshake where
  appID : Bytes
  sk : Nat
  eph : Nat
  clientEphPk : Bytes
  clientPk : Bytes
  sigA : Bytes
  step : ServerStep
deriving DecidableEq, Repr

/-- `ClientHandshake(Context{appID, clientSecretKey}, expectedServerPublicKey)`;
the ephemeral scalar is the entropy drawn at construction. -/
def ClientHandshake.init (appID : Bytes) (sk : Nat) (serverPk : Bytes) (eph : Nat) :
    ClientHandshake :=
  { appID := appID, sk := sk, eph := eph, serverPk := serverPk,
    serverEphPk := [], step := .send1 }

/-- `ServerHandshake(Context{appID, serverSecretKey})`. -/
def ServerHandshake.init (appID : Bytes) (sk : Nat) (eph : Nat) : ServerHandshake :=
  { appID := appID, sk := sk, eph := eph, clientEphPk := [], clientPk := [],
    sigA := [], step := .recv1 }

/-- Step-1 message: client ephemeral public key and its HMAC under the AppID. -/
def msg1 (appID : Bytes) (ceph : Nat) : Bytes :=
  curvePub ceph ++ hmacB appID (curvePub ceph)

/-- Step-2 message: server ephemeral public key and its HMAC under the AppID. -/
def msg2 (appID : Bytes) (seph : Nat) : Bytes :=
  curvePub seph ++ hmacB appID (curvePub seph)

def ClientHandshake.shared_ab (c : ClientHandshake) : Bytes := curveShared c.eph c.serverEphPk

def ClientHandshake.shared_aB (c : ClientHandshake) : Bytes := curveShared c.eph c.serverPk

def ClientHandshake.shared_Ab (c : ClientHandshake) : Bytes := curveShared c.sk c.serverEphPk

def ServerHandshake.shared_ab (s : ServerHandshake) : Bytes := curveShared s.eph s.clientEphPk

def ServerHandshake.shared_aB (s : ServerHandshake) : Bytes := curveShared s.sk s.clientEphPk

def ServerHandshake.shared_Ab (s : ServerHandshake) : Bytes := curveShared s.eph s.clientPk

/-- Key of the step-3 box: derived from {AppID, shared_ab, shared_aB}. -/
def ClientHandshake.key3 (c : ClientHandshake) : Bytes :=
  hashB (c.appID ++ c.shared_ab ++ c.shared_aB)

def ServerHandshake.key3 (s : ServerHandshake) : Bytes :=
  hashB (s.appID ++ s.shared_ab ++ s.shared_aB)

/-- Shared secret = key of the step-4 box: {AppID, shared_ab, shared_aB, shared_Ab}. -/
def ClientHandshake.key4 (c : ClientHandshake) : Bytes :=
  hashB (c.appID ++ c.shared_ab ++ c.shared_aB ++ c.shared_Ab)

def ServerHandshake.key4 (s : ServerHandshake) : Bytes :=
  hashB (s.appID ++ s.shared_ab ++ s.shared_aB ++ s.shared_Ab)

/-- The client's step-3 signature over (AppID ‖ server long-term pk ‖ H(shared_ab)). -/
def ClientHandshake.sigA (c : ClientHandshake) : Bytes :=
  signB c.sk (c.appID ++ c.serverPk ++ hashB c.shared_ab)

/-- Step-3 message: box of (client long-term pk ‖ signature). -/
def ClientHandshake.msg3 (c : ClientHandshake) : Bytes :=
  sealBox c.key3 zeroNonce [] (curvePub c.sk ++ c.sigA)

/-- Step-4 message: box of the server's signature over
(AppID ‖ client sig ‖ client long-term pk ‖ H(shared_ab)). -/
def ServerHandshake.msg4 (s : ServerHandshake) : Bytes :=
  sealBox s.key4 zeroNonce []
    (signB s.sk (s.appID ++ s.sigA ++ s.clientPk ++ hashB s.shared_ab))

def ClientHandshake.bytesToSend (c : ClientHandshake) : Bytes :=
  match c.step with
  | .send1 => msg1 c.appID c.eph
  | .send3 => c.msg3
  | _ => []

def ClientHandshake.bytesToRead (c : ClientHandshake) : Nat :=
  match c.step with
  | .recv2 => 64
  | .recv4 => 80
  | _ => 0

def ClientHandshake.sendCompleted (c : ClientHandshake) : ClientHandshake :=
  match c.step with
  | .send1 => { c with step := .recv2 }
  | .send3 => { c with step := .recv4 }
  | _ => { c with step := .cfailed }

def ClientHandshake.readCompleted (c : ClientHandshake) (bytes : Bytes) : ClientHandshake :=
  match c.step with
  | .recv2 =>
    if bytes.length = 64 ∧ bytes.drop 32 = hmacB c.appID (bytes.take 32) then
      { c with serverEphPk := bytes.take 32, step := .send3 }
    else { c with step := .cfailed }
  | .recv4 =>
    if bytes.length = 80 then
      match openBox c.key4 zeroNonce [] bytes with
      | some sigB =>
        if verifyB c.serverPk sigB (c.appID ++ c.sigA ++ curvePub c.sk ++ hashB c.shared_ab) then
          { c with step := .cdone }
        else { c with step := .cfailed }
      | none => { c with step := .cfailed }
    else { c with step := .cfailed }
  | _ => { c with step := .cfailed }

def ClientHandshake.failed (c : ClientHandshake) : Bool := c.step = .cfailed

def ClientHandshake.finished (c : ClientHandshake) : Bool := c.step = .cdone

/-- Session derivation, client side (spec §4.2 "Session derivation"). -/
def ClientHandshake.session (c : ClientHandshake) : Session :=
  { encryptionKey := hashB (c.key4 ++ c.serverPk)
    decryptionKey := hashB (c.key4 ++ curvePub c.sk)
    encryptionNonce := (hmacB c.appID c.serverEphPk).take 24
    decryptionNonce := (hmacB c.appID (curvePub c.eph)).take 24
    peerPublicKey := c.serverPk }

def ServerHandshake.bytesToSend (s : ServerHandshake) : Bytes :=
  match s.step with
  | .send2 => msg2 s.appID s.eph
  | .send4 => s.msg4
  | _ => []

def ServerHandshake.bytesToRead (s : ServerHandshake) : Nat :=
  match s.step with
  | .recv1 => 64
  | .recv3 => 112
  | _ => 0

def ServerHandshake.sendCompleted (s : ServerHandshake) : ServerHandshake :=
  match s.step with
  | .send2 => { s with step := .recv3 }
  | .send4 => { s with step := .sdone }
  | _ => { s with step := .sfailed }

def ServerHandshake.readCompleted (s : ServerHandshake) (bytes : Bytes) : ServerHandshake :=
  match s.step with
  | .recv1 =>
    if bytes.length = 64 ∧ bytes.drop 32 = hmacB s.appID (bytes.take 32) then
      { s with clientEphPk := bytes.take 32, step := .send2 }
    else { s with step := .sfailed }
  | .recv3 =>
    if bytes.length = 112 then
      match openBox s.key3 zeroNonce [] bytes with
      | some payload =>
        let cpk := payload.take 32
        let sg := payload.drop 32
        if verifyB cpk sg (s.appID ++ curvePub s.sk ++ hashB s.shared_ab) then
          { s with clientPk := cpk, sigA := sg, step := .send4 }
        else { s with step := .sfailed }
      | none => { s with step := .sfailed }
    else { s with step := .sfailed }
  | _ => { s with step := .sfailed }

def ServerHandshake.failed (s : ServerHandshake) : Bool := s.step = .sfailed

def ServerHandshake.finished (s : ServerHandshake) : Bool := s.step = .sdone

/-- Session derivation, server side (spec §4.2 "Session derivation"). -/
def ServerHandshake.session (s : ServerHandshake) : Session :=
  { encryptionKey := hashB (s.key4 ++ s.clientPk)
    decryptionKey := hashB (s.key4 ++ curvePub s.sk)
    encryptionNonce := (hmacB s.appID s.clientEphPk).take 24
    decryptionNonce := (hmacB s.appID (curvePub s.eph)).take 24
    peerPublicKey := s.clientPk }

namespace HSRun

/-! ## A full run of the handshake, mirroring `HandshakeTest::sendFromTo`:
the destination's `readCompleted` is called with the source's `bytesToSend`,
then the source's `sendCompleted`. -/
/-- Fresh client, configured with server public key `spk`. -/
def c0 (A : Bytes) (_ssk _seph csk ceph : Nat) (spk : Bytes) : ClientHandshake :=
  ClientHandshake.init A csk spk ceph

/-- Fresh server. -/
def s0 (A : Bytes) (ssk seph _csk _ceph : Nat) (_spk : Bytes) : ServerHandshake :=
  ServerHandshake.init A ssk seph

def w1 (A : Bytes) (ssk seph csk ceph : Nat) (spk : Bytes) : Bytes :=
  (c0 A ssk seph csk ceph spk).bytesToSend

def s1 (A : Bytes) (ssk seph csk ceph : Nat) (spk : Bytes) : ServerHandshake :=
  (s0 A ssk seph csk ceph spk).readCompleted (w1 A ssk seph csk ceph spk)

def c1 (A : Bytes) (ssk seph csk ceph : Nat) (spk : Bytes) : ClientHandshake :=
  (c0 A ssk seph csk ceph spk).sendCompleted

def w2 (A : Bytes) (ssk seph csk ceph : Nat) (spk : Bytes) : Bytes :=
  (s1 A ssk seph csk ceph spk).bytesToSend

def c2 (A : Bytes) (ssk seph csk ceph : Nat) (spk : Bytes) : ClientHandshake :=
  (c1 A ssk seph csk ceph spk).readCompleted (w2 A ssk seph csk ceph spk)

def s2 (A : Bytes) (ssk seph csk ceph : Nat) (spk : Bytes) : ServerHandshake :=
  (s1 A ssk seph csk ceph spk).sendCompleted

def w3 (A : Bytes) (ssk seph csk ceph : Nat) (spk : Bytes) : Bytes :=
  (c2 A ssk seph csk ceph spk).bytesToSend

def s3 (A : Bytes) (ssk seph csk ceph : Nat) (spk : Bytes) : ServerHandshake :=
  (s2 A ssk seph csk ceph spk).readCompleted (w3 A ssk seph csk ceph spk)

def c3 (A : Bytes) (ssk seph csk ceph : Nat) (spk : Bytes) : ClientHandshake :=
  (c2 A ssk seph csk ceph spk).sendCompleted

def w4 (A : Bytes) (ssk seph csk ceph : Nat) (spk : Bytes) : Bytes :=
  (s3 A ssk seph csk ceph spk).bytesToSend

def c4 (A : Bytes) (ssk seph csk ceph : Nat) (spk : Bytes) : ClientHandshake :=
  (c3 A ssk seph csk ceph spk).readCompleted (w4 A ssk seph csk ceph spk)

def s4 (A : Bytes) (ssk seph csk ceph : Nat) (spk : Bytes) : ServerHandshake :=
  (s3 A ssk seph csk ceph spk).sendCompleted

end HSRun

/-! ## CryptoBox: the record codec (spec §4.3), compact framing mode.

Modelled from the spec: buffers are `(pointer, length)` descriptors over a flat
byte memory; output descriptors carry capacity on entry and bytes written on
exit (spec §9).  Per the tests (`SecretHandshakeTests.cc` lines 166–176 and
203–204), a `CryptoBox` operates on the caller's `Session` by reference: its
nonces are the session's nonces, so the operations take and return a `Session`. -/
inductive CBStatus
  | Success | OutTooSmall | IncompleteInput | CorruptData
deriving DecidableEq, Repr

/-- Compact framing: 2-byte length prefix + 16-byte tag + ciphertext. -/
def encryptedSize (n : Nat) : Nat := n + 18

/-- Input descriptor: pointer (address into the flat memory) and byte count. -/
structure input_data where
  data : Nat
  size : Nat
deriving DecidableEq, Repr

/-- Output descriptor: pointer and capacity on entry / bytes written on exit. -/
structure output_buffer where
  data : Nat
  size : Nat
deriving DecidableEq, Repr

/-- Read `n` bytes at address `a`. -/
def slice (mem : Bytes) (a n : Nat) : Bytes := (mem.drop a).take n

/-- Overwrite memory at address `a` with the bytes `bs`. -/
def writeAt (mem : Bytes) (a : Nat) (bs : Bytes) : Bytes :=
  mem.take a ++ bs ++ mem.drop (a + bs.length)

/-- One compact-mode record: little-endian length, then the sealed box whose
additional data authenticates the length. -/
def encRecord (key nonce m : Bytes) : Bytes :=
  toBytesN m.length 2 ++ sealBox key nonce (toBytesN m.length 2) m

namespace CryptoBox

structure EncResult where
  status : CBStatus
  session : Session
  mem : Bytes
  out : output_buffer
deriving DecidableEq, Repr

/-- `CryptoBox::encrypt(in, out)`: authenticated-encrypts one record. -/
def encrypt (s : Session) (mem : Bytes) (inp : input_data) (out : output_buffer) : EncResult :=
  if out.size < encryptedSize inp.size then
    { status := .OutTooSmall, session := s, mem := mem, out := out }
  else
    { status := .Success,
      session := { s with encryptionNonce := incrNonce s.encryptionNonce },
      mem := writeAt mem out.data
        (encRecord s.encryptionKey s.encryptionNonce (slice mem inp.data inp.size)),
      out := { out with size := encryptedSize inp.size } }

/-- `CryptoBox::getDecryptedSize(in)`: pure peek at the length prefix. -/
def getDecryptedSize (_s : Session) (mem : Bytes) (inp : input_data) : CBStatus × Nat :=
  if inp.size < 2 then (.IncompleteInput, 0)
  else (.Success, fromBytes (slice mem inp.data 2))

structure DecResult where
  status : CBStatus
  session : Session
  mem : Bytes
  inp : input_data
  out : output_buffer
deriving DecidableEq, Repr

/-- `CryptoBox::decrypt(in, out)`: consumes exactly one record from the front of `in`. -/
def decrypt (s : Session) (mem : Bytes) (inp : input_data) (out : output_buffer) : DecResult :=
  if inp.size < 2 then
    { status := .IncompleteInput, session := s, mem := mem, inp := inp, out := out }
  else if inp.size < encryptedSize (fromBytes (slice mem inp.data 2)) then
    { status := .IncompleteInput, session := s, mem := mem, inp := inp, out := out }
  else if out.size < fromBytes (slice mem inp.data 2) then
    { status := .OutTooSmall, session := s, mem := mem, inp := inp, out := out }
  else
    match openBox s.decryptionKey s.decryptionNonce (toBytesN (fromBytes (slice mem inp.data 2)) 2)
        (slice mem (inp.data + 2) (fromBytes (slice mem inp.data 2) + 16)) with
    | none => { status := .CorruptData, session := s, mem := mem, inp := inp, out := out }
    | some m =>
      { status := .Success,
        session := { s with decryptionNonce := incrNonce s.decryptionNonce },
        mem := writeAt mem out.data m,
        inp := { data := inp.data + encryptedSize (fromBytes (slice mem inp.data 2)),
                 size := inp.size - encryptedSize (fromBytes (slice mem inp.data 2)) },
        out := { out with size := fromBytes (slice mem inp.data 2) } }

end CryptoBox

/-- Composition mirroring the "Encrypted Messages" test: encrypt at `outC`,
then decrypt reading from `outC` into `outP`. -/
def CryptoBox.roundTrip (s1 s2 : Session) (mem : Bytes) (inp : input_data)
    (outC outP : output_buffer) : CryptoBox.EncResult × CryptoBox.DecResult :=
  let e := CryptoBox.encrypt s1 mem inp outC
  (e, CryptoBox.decrypt s2 e.mem { data := outC.data, size := e.out.size } outP)

/-! ## Encryption / decryption streams (spec §4.4), layered over the record codec. -/
/-- Modelled from the spec: `EncryptionStream` holds a pending-plaintext buffer
and an outbound-ciphertext buffer over the (shared) session. -/
structure EncryptionStream where
  session : Session
  pending : Bytes
  outBuf : Bytes
deriving DecidableEq, Repr

def EncryptionStream.init (s : Session) : EncryptionStream :=
  { session := s, pending := [], outBuf := [] }

/-- Append to pending plaintext; produces no ciphertext. -/
def EncryptionStream.pushPartial (e : EncryptionStream) (bs : Bytes) : EncryptionStream :=
  { e with pending := e.pending ++ bs }

/-- Encrypt the pending buffer as one record, if non-empty. -/
def EncryptionStream.flush (e : EncryptionStream) : EncryptionStream :=
  if e.pending = [] then e
  else
    { session := { e.session with encryptionNonce := incrNonce e.session.encryptionNonce },
      pending := [],
      outBuf := e.outBuf ++ encRecord e.session.encryptionKey e.session.encryptionNonce e.pending }

/-- `push = pushPartial` followed by `flush`. -/
def EncryptionStream.push (e : EncryptionStream) (bs : Bytes) : EncryptionStream :=
  (e.pushPartial bs).flush

def EncryptionStream.bytesAvailable (e : EncryptionStream) : Nat := e.outBuf.length

/-- Copy up to `maxb` outbound bytes and consume them. -/
def EncryptionStream.pull (e : EncryptionStream) (maxb : Nat) : Bytes × EncryptionStream :=
  (e.outBuf.take maxb, { e with outBuf := e.outBuf.drop maxb })

def EncryptionStream.pushMany (e : EncryptionStream) (ms : List Bytes) : EncryptionStream :=
  ms.foldl EncryptionStream.push e

/-- Modelled from the spec: `DecryptionStream` holds an inbound-ciphertext
buffer and a decoded-plaintext buffer; `corrupt` poisons the stream. -/
structure DecryptionStream where
  session : Session
  inBuf : Bytes
  clearBuf : Bytes
  corrupt : Bool
deriving DecidableEq, Repr

def DecryptionStream.init (s : Session) : DecryptionStream :=
  { session := s, inBuf := [], clearBuf := [], corrupt := false }

/-- Decode complete records from the front of the inbound buffer, repeatedly.
Structural fuel; each step consumes at least 18 bytes, so `inBuf.length` fuel
always suffices. -/
def DecryptionStream.drainF : Nat → DecryptionStream → DecryptionStream
  | 0, d => d
  | fuel + 1, d =>
    if d.corrupt then d
    else if d.inBuf.length < 2 then d
    else if d.inBuf.length < fromBytes (d.inBuf.take 2) + 18 then d
    else
      match openBox d.session.decryptionKey d.session.decryptionNonce
          (toBytesN (fromBytes (d.inBuf.take 2)) 2)
          ((d.inBuf.drop 2).take (fromBytes (d.inBuf.take 2) + 16)) with
      | none => { d with corrupt := true }
      | some m =>
        DecryptionStream.drainF fuel
          { session := { d.session with decryptionNonce := incrNonce d.session.decryptionNonce },
            inBuf := d.inBuf.drop (fromBytes (d.inBuf.take 2) + 18),
            clearBuf := d.clearBuf ++ m,
            corrupt := false }

def DecryptionStream.drain (d : DecryptionStream) : DecryptionStream :=
  DecryptionStream.drainF d.inBuf.length d

/-- Append inbound ciphertext, then decode every complete record; returns
`false` on corruption. -/
def DecryptionStream.push (d : DecryptionStream) (bs : Bytes) : Bool × DecryptionStream :=
  ((DecryptionStream.drain { d with inBuf := d.inBuf ++ bs }).corrupt = false,
   DecryptionStream.drain { d with inBuf := d.inBuf ++ bs })

def DecryptionStream.bytesAvailable (d : DecryptionStream) : Nat := d.clearBuf.length

/-- Copy up to `maxb` decoded plaintext bytes and consume them. -/
def DecryptionStream.pull (d : DecryptionStream) (maxb : Nat) : Bytes × DecryptionStream :=
  (d.clearBuf.take maxb, { d with clearBuf := d.clearBuf.drop maxb })

def DecryptionStream.pushMany (d : DecryptionStream) (cs : List Bytes) : DecryptionStream :=
  cs.foldl (fun d c => (DecryptionStream.push d c).2) d

/-- The ciphertext of the records for messages `ms`, with nonces advancing. -/
def recordsOf (key : Bytes) : Bytes → List Bytes → Bytes
  | _, [] => []
  | nonce, m :: ms => encRecord key nonce m ++ recordsOf key (incrNonce nonce) ms

/-- The nonce after `ms.length` increments. -/
def nonceAfter (nonce : Bytes) : List Bytes → Bytes
  | [] => nonce
  | _ :: ms => nonceAfter (incrNonce nonce) ms

/-- A buffer on which `drain` is stuck: no complete record at the front. -/
def Stuck (l : Bytes) : Prop :=
  l.length < 2 ∨ l.length < fromBytes (l.take 2) + 18

instance : DecidablePred Stuck := fun l => by
  unfold Stuck
  infer_instance

/-- Bytes of a (here: ASCII) string. -/
def strBytes (s : String) : Bytes := s.data.map Char.toNat

namespace Context

/-- Modelled from the spec: `Context::appIDFromString` returns a 32-byte
buffer, `min(len(s), 32)` bytes copied from `s`, the rest zero. -/
def appIDFromString (s : String) : Bytes :=
  (strBytes s).take 32 ++ List.replicate (32 - (strBytes s).length) 0

end Context

end SHS

/-! ## Theorems -/

namespace SHS

@[simp] theorem toBytesN_length (n len : Nat) : (toBytesN n len).length = len := by
  induction len generalizing n with
  | zero => rfl
  | succ k ih => simp [toBytesN, ih]

theorem isBytes_toBytesN (n len : Nat) : IsBytes (toBytesN n len) := by
  induction len generalizing n with
  | zero => intro b hb; simp [toBytesN] at hb
  | succ k ih =>
    intro b hb
    simp only [toBytesN, List.mem_cons] at hb
    rcases hb with h | h
    · omega
    · exact ih _ _ h

theorem fromBytes_toBytesN {n len : Nat} (h : n < 256 ^ len) :
    fromBytes (toBytesN n len) = n := by
  induction len generalizing n with
  | zero =>
    simp [Nat.pow_zero] at h
    simp [toBytesN, fromBytes, h]
  | succ k ih =>
    have hdiv : n / 256 < 256 ^ k := by
      rw [Nat.div_lt_iff_lt_mul (by omega : 0 < 256)]
      calc n < 256 ^ (k + 1) := h
        _ = 256 ^ k * 256 := by ring
    simp [toBytesN, fromBytes, ih hdiv]
    omega

theorem fromBytes_lt {l : Bytes} (h : IsBytes l) : fromBytes l < 256 ^ l.length := by
  induction l with
  | nil => simp [fromBytes]
  | cons b rest ih =>
    have hb : b < 256 := h b (List.mem_cons_self b rest)
    have hr : fromBytes rest < 256 ^ rest.length :=
      ih (fun x hx => h x (List.mem_cons_of_mem b hx))
    simp only [fromBytes, List.length_cons, Nat.pow_succ]
    calc b + 256 * fromBytes rest < 256 + 256 * fromBytes rest := by omega
      _ = 256 * (fromBytes rest + 1) := by ring
      _ ≤ 256 * 256 ^ rest.length := by
          exact Nat.mul_le_mul_left 256 hr
      _ = 256 ^ rest.length * 256 := by ring

theorem fromBytes_append (a b : Bytes) :
    fromBytes (a ++ b) = fromBytes a + 256 ^ a.length * fromBytes b := by
  induction a with
  | nil => simp [fromBytes]
  | cons x rest ih =>
    show fromBytes (x :: (rest ++ b)) = _
    rw [fromBytes, ih]
    simp only [fromBytes, List.length_cons, Nat.pow_succ]
    ring

@[simp] theorem curvePub_length (x : Nat) : (curvePub x).length = 32 := by
  simp [curvePub]

theorem curveShared_comm (a b : Nat) :
    curveShared a (curvePub b) = curveShared b (curvePub a) := by
  unfold curveShared curvePub
  have hlt : ∀ y : Nat, DHG ^ y % DHP < 256 ^ 32 := by
    intro y
    have h1 : DHG ^ y % DHP < DHP := Nat.mod_lt _ (by norm_num [DHP])
    have h2 : DHP < 256 ^ 32 := by norm_num [DHP]
    omega
  rw [fromBytes_toBytesN (hlt b), fromBytes_toBytesN (hlt a)]
  rw [← Nat.pow_mod, ← Nat.pow_mod, ← Nat.pow_mul, ← Nat.pow_mul, Nat.mul_comm]

@[simp] theorem signB_length (sk : Nat) (m : Bytes) : (signB sk m).length = 64 := by
  simp [signB]

@[simp] theorem verifyB_signB (sk : Nat) (m : Bytes) :
    verifyB (curvePub sk) (signB sk m) m = true := by
  simp [verifyB, signB]

@[simp] theorem sealBox_length (key nonce ad m : Bytes) :
    (sealBox key nonce ad m).length = m.length + 16 := by
  simp [sealBox, Nat.add_comm]

theorem take_len_append (a b : Bytes) : (a ++ b).take a.length = a := by
  simp

theorem drop_len_append (a b : Bytes) : (a ++ b).drop a.length = b := by
  simp

@[simp] theorem openBox_sealBox (key nonce ad m : Bytes) :
    openBox key nonce ad (sealBox key nonce ad m) = some m := by
  unfold openBox sealBox
  have htake : (toBytesN (absorb (key ++ nonce ++ ad ++ m)) 16 ++ m).take 16
      = toBytesN (absorb (key ++ nonce ++ ad ++ m)) 16 := by
    simp
  have hdrop : (toBytesN (absorb (key ++ nonce ++ ad ++ m)) 16 ++ m).drop 16 = m := by
    simp
  rw [if_pos]
  · rw [hdrop]
  · constructor
    · simp
    · rw [htake, hdrop]

@[simp] theorem incrNonce_length (l : Bytes) : (incrNonce l).length = l.length := by
  simp [incrNonce]

theorem incrNonce_ne {l : Bytes} (hne : l ≠ []) (hb : IsBytes l) : incrNonce l ≠ l := by
  intro heq
  have hrev : IsBytes l.reverse := fun b hbm => hb b (List.mem_reverse.mp hbm)
  have hlt : fromBytes l.reverse < 256 ^ l.length := by
    have := fromBytes_lt hrev
    simpa using this
  have hN : 1 < 256 ^ l.length := by
    have : 0 < l.length := List.length_pos.mpr hne
    calc 1 < 256 := by norm_num
      _ = 256 ^ 1 := (Nat.pow_one 256).symm
      _ ≤ 256 ^ l.length := Nat.pow_le_pow_right (by norm_num) this
  set v := fromBytes l.reverse with hv
  have hval : fromBytes (incrNonce l).reverse = (v + 1) % 256 ^ l.length := by
    unfold incrNonce
    rw [List.reverse_reverse]
    exact fromBytes_toBytesN (Nat.mod_lt _ (by omega))
  rw [heq] at hval
  rcases Nat.lt_or_ge (v + 1) (256 ^ l.length) with hc | hc
  · rw [Nat.mod_eq_of_lt hc] at hval
    omega
  · have hveq : v + 1 = 256 ^ l.length := by omega
    rw [hveq, Nat.mod_self] at hval
    omega

theorem isBytes_incrNonce (l : Bytes) : IsBytes (incrNonce l) := by
  intro b hb
  exact isBytes_toBytesN _ _ b (List.mem_reverse.mp hb)

@[simp] theorem hashB_length (m : Bytes) : (hashB m).length = 32 := by
  simp [hashB]

@[simp] theorem hmacB_length (k m : Bytes) : (hmacB k m).length = 32 := by
  simp [hmacB]

theorem take_append_of_length {a : Bytes} (b : Bytes) {k : Nat} (h : a.length = k) :
    (a ++ b).take k = a := by
  subst h; simp

theorem drop_append_of_length {a : Bytes} (b : Bytes) {k : Nat} (h : a.length = k) :
    (a ++ b).drop k = b := by
  subst h; simp

namespace HSRun

theorem w1_eq (A : Bytes) (ssk seph csk ceph : Nat) (spk : Bytes) :
    w1 A ssk seph csk ceph spk = msg1 A ceph := rfl

theorem s1_eq (A : Bytes) (ssk seph csk ceph : Nat) (spk : Bytes) :
    s1 A ssk seph csk ceph spk =
      { appID := A, sk := ssk, eph := seph, clientEphPk := curvePub ceph,
        clientPk := [], sigA := [], step := .send2 } := by
  have htake : (msg1 A ceph).take 32 = curvePub ceph :=
    take_append_of_length _ (curvePub_length ceph)
  have hdrop : (msg1 A ceph).drop 32 = hmacB A (curvePub ceph) :=
    drop_append_of_length _ (curvePub_length ceph)
  have hlen : (msg1 A ceph).length = 64 := by simp [msg1]
  unfold s1 s0 ServerHandshake.init ServerHandshake.readCompleted
  rw [w1_eq]
  simp [htake, hdrop, hlen]

theorem c1_eq (A : Bytes) (ssk seph csk ceph : Nat) (spk : Bytes) :
    c1 A ssk seph csk ceph spk =
      { appID := A, sk := csk, eph := ceph, serverPk := spk,
        serverEphPk := [], step := .recv2 } := rfl

theorem w2_eq (A : Bytes) (ssk seph csk ceph : Nat) (spk : Bytes) :
    w2 A ssk seph csk ceph spk = msg2 A seph := by
  unfold w2
  rw [s1_eq]
  rfl

theorem c2_eq (A : Bytes) (ssk seph csk ceph : Nat) (spk : Bytes) :
    c2 A ssk seph csk ceph spk =
      { appID := A, sk := csk, eph := ceph, serverPk := spk,
        serverEphPk := curvePub seph, step := .send3 } := by
  have htake : (msg2 A seph).take 32 = curvePub seph :=
    take_append_of_length _ (curvePub_length seph)
  have hdrop : (msg2 A seph).drop 32 = hmacB A (curvePub seph) :=
    drop_append_of_length _ (curvePub_length seph)
  have hlen : (msg2 A seph).length = 64 := by simp [msg2]
  unfold c2
  rw [w2_eq, c1_eq]
  unfold ClientHandshake.readCompleted
  simp [htake, hdrop, hlen]

theorem s2_eq (A : Bytes) (ssk seph csk ceph : Nat) (spk : Bytes) :
    s2 A ssk seph csk ceph spk =
      { appID := A, sk := ssk, eph := seph, clientEphPk := curvePub ceph,
        clientPk := [], sigA := [], step := .recv3 } := by
  unfold s2
  rw [s1_eq]
  rfl

theorem w3_eq (A : Bytes) (ssk seph csk ceph : Nat) (spk : Bytes) :
    w3 A ssk seph csk ceph spk =
      sealBox (hashB (A ++ curveShared ceph (curvePub seph) ++ curveShared ceph spk))
        zeroNonce []
        (curvePub csk ++ signB csk (A ++ spk ++ hashB (curveShared ceph (curvePub seph)))) := by
  unfold w3
  rw [c2_eq]
  rfl

theorem s3_eq (A : Bytes) (ssk seph csk ceph : Nat) :
    s3 A ssk seph csk ceph (curvePub ssk) =
      { appID := A, sk := ssk, eph := seph, clientEphPk := curvePub ceph,
        clientPk := curvePub csk,
        sigA := signB csk (A ++ curvePub ssk ++ hashB (curveShared ceph (curvePub seph))),
        step := .send4 } := by
  have hpay : (curvePub csk ++
      signB csk (A ++ curvePub ssk ++ hashB (curveShared ceph (curvePub seph)))).length = 96 := by
    simp
  unfold s3
  rw [w3_eq, s2_eq]
  unfold ServerHandshake.readCompleted ServerHandshake.key3 ServerHandshake.shared_ab
    ServerHandshake.shared_aB
  simp only [sealBox_length, hpay]
  rw [curveShared_comm seph ceph, curveShared_comm ssk ceph]
  simp only [openBox_sealBox]
  rw [take_append_of_length _ (curvePub_length csk),
      drop_append_of_length _ (curvePub_length csk)]
  simp

theorem c3_eq (A : Bytes) (ssk seph csk ceph : Nat) (spk : Bytes) :
    c3 A ssk seph csk ceph spk =
      { appID := A, sk := csk, eph := ceph, serverPk := spk,
        serverEphPk := curvePub seph, step := .recv4 } := by
  unfold c3
  rw [c2_eq]
  rfl

theorem w4_eq (A : Bytes) (ssk seph csk ceph : Nat) :
    w4 A ssk seph csk ceph (curvePub ssk) =
      sealBox
        (hashB (A ++ curveShared ceph (curvePub seph) ++ curveShared ceph (curvePub ssk) ++
          curveShared csk (curvePub seph)))
        zeroNonce []
        (signB ssk
          (A ++ signB csk (A ++ curvePub ssk ++ hashB (curveShared ceph (curvePub seph))) ++
            curvePub csk ++ hashB (curveShared ceph (curvePub seph)))) := by
  unfold w4
  rw [s3_eq]
  unfold ServerHandshake.bytesToSend ServerHandshake.msg4 ServerHandshake.key4
    ServerHandshake.shared_ab ServerHandshake.shared_aB ServerHandshake.shared_Ab
  rw [curveShared_comm seph ceph, curveShared_comm ssk ceph, curveShared_comm seph csk]

theorem c4_eq (A : Bytes) (ssk seph csk ceph : Nat) :
    c4 A ssk seph csk ceph (curvePub ssk) =
      { appID := A, sk := csk, eph := ceph, serverPk := curvePub ssk,
        serverEphPk := curvePub seph, step := .cdone } := by
  unfold c4
  rw [w4_eq, c3_eq]
  unfold ClientHandshake.readCompleted ClientHandshake.key4 ClientHandshake.sigA
    ClientHandshake.shared_ab ClientHandshake.shared_aB ClientHandshake.shared_Ab
  simp only [sealBox_length, signB_length]
  simp only [openBox_sealBox]
  simp

theorem s4_eq (A : Bytes) (ssk seph csk ceph : Nat) :
    s4 A ssk seph csk ceph (curvePub ssk) =
      { appID := A, sk := ssk, eph := seph, clientEphPk := curvePub ceph,
        clientPk := curvePub csk,
        sigA := signB csk (A ++ curvePub ssk ++ hashB (curveShared ceph (curvePub seph))),
        step := .sdone } := by
  unfold s4
  rw [s3_eq]
  rfl

/-- **C1.** For a fresh `ServerHandshake` and `ClientHandshake` built over the same
AppID, the client configured with the server's true public key: the four wire
messages measure 64, 64, 112 and 80 bytes; after the fourth message both sides
are `finished`; and the two sessions cross-match (client encryption key/nonce
equal server decryption key/nonce and vice versa), with each side's
`peerPublicKey` equal to the other side's long-term public key. -/
theorem handshake_happy_path (A : Bytes) (ssk seph csk ceph : Nat) :
    (w1 A ssk seph csk ceph (curvePub ssk)).length = 64 ∧
    (w2 A ssk seph csk ceph (curvePub ssk)).length = 64 ∧
    (w3 A ssk seph csk ceph (curvePub ssk)).length = 112 ∧
    (w4 A ssk seph csk ceph (curvePub ssk)).length = 80 ∧
    (c4 A ssk seph csk ceph (curvePub ssk)).finished = true ∧
    (s4 A ssk seph csk ceph (curvePub ssk)).finished = true ∧
    (c4 A ssk seph csk ceph (curvePub ssk)).session.encryptionKey =
      (s4 A ssk seph csk ceph (curvePub ssk)).session.decryptionKey ∧
    (c4 A ssk seph csk ceph (curvePub ssk)).session.encryptionNonce =
      (s4 A ssk seph csk ceph (curvePub ssk)).session.decryptionNonce ∧
    (c4 A ssk seph csk ceph (curvePub ssk)).session.decryptionKey =
      (s4 A ssk seph csk ceph (curvePub ssk)).session.encryptionKey ∧
    (c4 A ssk seph csk ceph (curvePub ssk)).session.decryptionNonce =
      (s4 A ssk seph csk ceph (curvePub ssk)).session.encryptionNonce ∧
    (s4 A ssk seph csk ceph (curvePub ssk)).session.peerPublicKey = curvePub csk ∧
    (c4 A ssk seph csk ceph (curvePub ssk)).session.peerPublicKey = curvePub ssk := by
  rw [w1_eq, w2_eq, w3_eq, w4_eq, c4_eq, s4_eq]
  refine ⟨by simp [msg1], by simp [msg2], by simp, by simp, rfl, rfl, ?_, rfl, ?_, rfl, rfl, rfl⟩
  · unfold ClientHandshake.session ServerHandshake.session ClientHandshake.key4
      ServerHandshake.key4 ClientHandshake.shared_ab ClientHandshake.shared_aB
      ClientHandshake.shared_Ab ServerHandshake.shared_ab ServerHandshake.shared_aB
      ServerHandshake.shared_Ab
    rw [curveShared_comm seph ceph, curveShared_comm ssk ceph, curveShared_comm seph csk]
  · unfold ClientHandshake.session ServerHandshake.session ClientHandshake.key4
      ServerHandshake.key4 ClientHandshake.shared_ab ClientHandshake.shared_aB
      ClientHandshake.shared_Ab ServerHandshake.shared_ab ServerHandshake.shared_aB
      ServerHandshake.shared_Ab
    rw [curveShared_comm seph ceph, curveShared_comm ssk ceph, curveShared_comm seph csk]

end HSRun

/-- **C6.** In every state of either handshake role, at most one direction is
active: whenever `bytesToSend` is non-empty, `bytesToRead` is zero, and
whenever `bytesToRead` is non-zero, `bytesToSend` is empty. -/
theorem handshake_alternation :
    (∀ c : ClientHandshake, c.bytesToSend = [] ∨ c.bytesToRead = 0) ∧
    (∀ s : ServerHandshake, s.bytesToSend = [] ∨ s.bytesToRead = 0) := by
  constructor
  · intro c
    cases h : c.step <;>
      simp [ClientHandshake.bytesToSend, ClientHandshake.bytesToRead, h]
  · intro s
    cases h : s.step <;>
      simp [ServerHandshake.bytesToSend, ServerHandshake.bytesToRead, h]

theorem server_failed_state (s : ServerHandshake) (h : s.failed = true) :
    s.finished = false ∧ s.bytesToSend = [] ∧ s.bytesToRead = 0 ∧
    s.sendCompleted.failed = true ∧ ∀ b, (s.readCompleted b).failed = true := by
  have hstep : s.step = .sfailed := by
    simpa [ServerHandshake.failed] using h
  refine ⟨?_, ?_, ?_, ?_, ?_⟩ <;>
    simp [ServerHandshake.finished, ServerHandshake.bytesToSend, ServerHandshake.bytesToRead,
      ServerHandshake.sendCompleted, ServerHandshake.readCompleted, ServerHandshake.failed, hstep]

namespace HSRun

/-- **C7.** With the client configured with a wrong server public key, handshake
steps 1 and 2 (both 64 bytes) complete with neither side failing; if the
server's step-3 box fails to open (the effect of the mismatched key, since the
client derives the box key from the configured key), then delivering the
112-byte step-3 message sets `server.failed`, after which the server never
finishes, sends and expects no bytes, and every further transition stays
failed — a failed handshake never yields a session. -/
theorem wrong_server_key_fails (A : Bytes) (ssk seph csk ceph : Nat) (spk : Bytes)
    (hOpen : openBox (hashB (A ++ curveShared seph (curvePub ceph) ++
        curveShared ssk (curvePub ceph))) zeroNonce []
        (w3 A ssk seph csk ceph spk) = none) :
    (s1 A ssk seph csk ceph spk).failed = false ∧
    (c1 A ssk seph csk ceph spk).failed = false ∧
    (s2 A ssk seph csk ceph spk).failed = false ∧
    (c2 A ssk seph csk ceph spk).failed = false ∧
    (w1 A ssk seph csk ceph spk).length = 64 ∧
    (w2 A ssk seph csk ceph spk).length = 64 ∧
    (w3 A ssk seph csk ceph spk).length = 112 ∧
    (s3 A ssk seph csk ceph spk).failed = true ∧
    (s3 A ssk seph csk ceph spk).finished = false ∧
    (s3 A ssk seph csk ceph spk).bytesToSend = [] ∧
    (s3 A ssk seph csk ceph spk).bytesToRead = 0 ∧
    (s3 A ssk seph csk ceph spk).sendCompleted.failed = true ∧
    ∀ b, ((s3 A ssk seph csk ceph spk).readCompleted b).failed = true := by
  have hfail : (s3 A ssk seph csk ceph spk).failed = true := by
    unfold s3
    rw [s2_eq]
    unfold ServerHandshake.readCompleted ServerHandshake.key3 ServerHandshake.shared_ab
      ServerHandshake.shared_aB
    simp only [hOpen]
    split <;> simp [ServerHandshake.failed]
  obtain ⟨h1, h2, h3, h4, h5⟩ := server_failed_state _ hfail
  refine ⟨?_, ?_, ?_, ?_, ?_, ?_, ?_, hfail, h1, h2, h3, h4, h5⟩
  · rw [s1_eq]; rfl
  · rw [c1_eq]; rfl
  · rw [s2_eq]; rfl
  · rw [c2_eq]; rfl
  · rw [w1_eq]; simp [msg1]
  · rw [w2_eq]; simp [msg2]
  · rw [w3_eq]; simp

set_option maxRecDepth 10000 in
theorem wrong_server_key_fails_witness :
    (openBox (hashB (([1,2,3] : Bytes) ++ curveShared 6 (curvePub 11) ++
        curveShared 5 (curvePub 11))) zeroNonce []
        (w3 [1,2,3] 5 6 9 11 ((curvePub 5).set 17 1)) = none) ∧
    (s3 [1,2,3] 5 6 9 11 ((curvePub 5).set 17 1)).failed = true := by
  have h : openBox (hashB (([1,2,3] : Bytes) ++ curveShared 6 (curvePub 11) ++
      curveShared 5 (curvePub 11))) zeroNonce []
      (w3 [1,2,3] 5 6 9 11 ((curvePub 5).set 17 1)) = none := by decide
  exact ⟨h, (wrong_server_key_fails [1,2,3] 5 6 9 11 ((curvePub 5).set 17 1) h).2.2.2.2.2.2.2.1⟩

end HSRun

@[simp] theorem encRecord_length (key nonce m : Bytes) :
    (encRecord key nonce m).length = m.length + 18 := by
  simp [encRecord]
  omega

theorem length_writeAt {mem bs : Bytes} {a : Nat} (h : a + bs.length ≤ mem.length) :
    (writeAt mem a bs).length = mem.length := by
  simp [writeAt]
  omega

theorem slice_length {mem : Bytes} {a n : Nat} (h : a + n ≤ mem.length) :
    (slice mem a n).length = n := by
  simp [slice]
  omega

theorem slice_writeAt_sub {mem bs : Bytes} {a i k : Nat}
    (hw : a + bs.length ≤ mem.length) (hk : i + k ≤ bs.length) :
    slice (writeAt mem a bs) (a + i) k = (bs.drop i).take k := by
  unfold slice writeAt
  have hta : (mem.take a).length = a := by simp; omega
  rw [show a + i = (mem.take a).length + i by rw [hta]]
  rw [List.append_assoc, List.drop_append i]
  rw [List.drop_append_of_le_length (by omega : i ≤ bs.length)]
  rw [List.take_append_of_le_length (by simp; omega : k ≤ (bs.drop i).length)]

theorem slice_writeAt {mem bs : Bytes} {a k : Nat}
    (hw : a + bs.length ≤ mem.length) (hk : k ≤ bs.length) :
    slice (writeAt mem a bs) a k = bs.take k := by
  have := slice_writeAt_sub (i := 0) (k := k) hw (by omega)
  simpa using this

/-- **C2.** Over crossed sessions (receiver decryption key/nonce equal to the
sender encryption key/nonce), a record produced by `CryptoBox::encrypt` is
decrypted back by `CryptoBox::decrypt` to exactly the original plaintext;
decrypt consumes exactly one record from the front of the input, advancing
`in.data` past the record and reducing `in.size` to zero, sets `out.size` to
the plaintext length, and afterwards the sender's encryption nonce equals the
receiver's decryption nonce. -/
theorem cryptobox_roundtrip
    (s1 s2 : Session) (mem : Bytes) (inp : input_data) (outC outP : output_buffer)
    (hk : s2.decryptionKey = s1.encryptionKey)
    (hn : s2.decryptionNonce = s1.encryptionNonce)
    (hsz : inp.size < 65536)
    (hinb : inp.data + inp.size ≤ mem.length)
    (hcap : encryptedSize inp.size ≤ outC.size)
    (hCb : outC.data + encryptedSize inp.size ≤ mem.length)
    (hPcap : inp.size ≤ outP.size)
    (hPb : outP.data + inp.size ≤ mem.length) :
    (CryptoBox.roundTrip s1 s2 mem inp outC outP).1.status = .Success ∧
    (CryptoBox.roundTrip s1 s2 mem inp outC outP).1.out.size = encryptedSize inp.size ∧
    (CryptoBox.roundTrip s1 s2 mem inp outC outP).2.status = .Success ∧
    slice (CryptoBox.roundTrip s1 s2 mem inp outC outP).2.mem outP.data inp.size =
      slice mem inp.data inp.size ∧
    (CryptoBox.roundTrip s1 s2 mem inp outC outP).2.out.size = inp.size ∧
    (CryptoBox.roundTrip s1 s2 mem inp outC outP).2.inp.data =
      outC.data + encryptedSize inp.size ∧
    (CryptoBox.roundTrip s1 s2 mem inp outC outP).2.inp.size = 0 ∧
    (CryptoBox.roundTrip s1 s2 mem inp outC outP).1.session.encryptionNonce =
      (CryptoBox.roundTrip s1 s2 mem inp outC outP).2.session.decryptionNonce := by
  have hm : (slice mem inp.data inp.size).length = inp.size := slice_length hinb
  have hRlen : (encRecord s1.encryptionKey s1.encryptionNonce
      (slice mem inp.data inp.size)).length = inp.size + 18 := by
    rw [encRecord_length, hm]
  have he : CryptoBox.encrypt s1 mem inp outC =
      { status := .Success,
        session := { s1 with encryptionNonce := incrNonce s1.encryptionNonce },
        mem := writeAt mem outC.data
          (encRecord s1.encryptionKey s1.encryptionNonce (slice mem inp.data inp.size)),
        out := { outC with size := encryptedSize inp.size } } := by
    unfold CryptoBox.encrypt
    rw [if_neg (by simp only [encryptedSize] at hcap ⊢; omega)]
  have hwb : outC.data + (encRecord s1.encryptionKey s1.encryptionNonce
      (slice mem inp.data inp.size)).length ≤ mem.length := by
    rw [hRlen]
    simpa [encryptedSize] using hCb
  have hread2 : slice (writeAt mem outC.data
      (encRecord s1.encryptionKey s1.encryptionNonce (slice mem inp.data inp.size)))
      outC.data 2 = toBytesN inp.size 2 := by
    rw [slice_writeAt hwb (by rw [hRlen]; omega)]
    unfold encRecord
    rw [hm]
    exact take_append_of_length _ (toBytesN_length _ _)
  have hfrom2 : fromBytes (toBytesN inp.size 2) = inp.size := by
    refine fromBytes_toBytesN ?_
    have : (256 : Nat) ^ 2 = 65536 := by norm_num
    omega
  have hreadBody : slice (writeAt mem outC.data
      (encRecord s1.encryptionKey s1.encryptionNonce (slice mem inp.data inp.size)))
      (outC.data + 2) (inp.size + 16)
      = sealBox s1.encryptionKey s1.encryptionNonce (toBytesN inp.size 2)
          (slice mem inp.data inp.size) := by
    rw [slice_writeAt_sub hwb (by rw [hRlen]; omega)]
    unfold encRecord
    rw [hm]
    rw [drop_append_of_length _ (toBytesN_length _ _)]
    exact List.take_of_length_le (by simp [hm])
  have hd : CryptoBox.decrypt s2
      (writeAt mem outC.data
        (encRecord s1.encryptionKey s1.encryptionNonce (slice mem inp.data inp.size)))
      { data := outC.data, size := encryptedSize inp.size } outP =
      { status := .Success,
        session := { s2 with decryptionNonce := incrNonce s2.decryptionNonce },
        mem := writeAt
          (writeAt mem outC.data
            (encRecord s1.encryptionKey s1.encryptionNonce (slice mem inp.data inp.size)))
          outP.data (slice mem inp.data inp.size),
        inp := { data := outC.data + encryptedSize inp.size, size := 0 },
        out := { outP with size := inp.size } } := by
    unfold CryptoBox.decrypt
    simp only [hread2, hfrom2]
    rw [if_neg (by simp [encryptedSize]), if_neg (by omega), if_neg (by omega)]
    rw [hreadBody, hk, hn, openBox_sealBox]
    simp [encryptedSize]
  unfold CryptoBox.roundTrip
  simp only [he, hd]
  refine ⟨trivial, trivial, trivial, ?_, trivial, trivial, trivial, by rw [hn]⟩
  have hmem1len : (writeAt mem outC.data
      (encRecord s1.encryptionKey s1.encryptionNonce (slice mem inp.data inp.size))).length
      = mem.length := length_writeAt hwb
  rw [slice_writeAt (by rw [hmem1len, hm]; exact hPb) (by rw [hm])]
  exact List.take_of_length_le (by rw [hm])

/-- **C4.** `encryptedSize` is plaintext length + 18 (compact mode), so
`encryptedSize 44 = 62`; `encrypt` returns `OutTooSmall` leaving every piece
of observable state untouched whenever the output capacity is below
`encryptedSize`, and otherwise succeeds, sets `out.size` to exactly
`encryptedSize`, and strictly advances the encryption nonce. -/
theorem encrypt_size_contract (s : Session) (mem : Bytes) (inp : input_data)
    (out : output_buffer)
    (hnb : IsBytes s.encryptionNonce) (hne : s.encryptionNonce ≠ []) :
    encryptedSize 44 = 62 ∧
    (out.size < encryptedSize inp.size →
      CryptoBox.encrypt s mem inp out =
        { status := .OutTooSmall, session := s, mem := mem, out := out }) ∧
    (encryptedSize inp.size ≤ out.size →
      (CryptoBox.encrypt s mem inp out).status = .Success ∧
      (CryptoBox.encrypt s mem inp out).out.size = encryptedSize inp.size ∧
      (CryptoBox.encrypt s mem inp out).session.encryptionNonce ≠ s.encryptionNonce) := by
  refine ⟨rfl, ?_, ?_⟩
  · intro h
    unfold CryptoBox.encrypt
    rw [if_pos h]
  · intro h
    unfold CryptoBox.encrypt
    rw [if_neg (by omega)]
    exact ⟨rfl, rfl, incrNonce_ne hne hnb⟩

/-- **C10.** `encrypt` and `decrypt` never change the output descriptor's data
pointer; on success `decrypt` advances the input pointer by exactly the
consumed record's encrypted size, and on error it leaves the input descriptor
untouched. -/
theorem pointer_frame (s : Session) (mem : Bytes) (inp : input_data)
    (out : output_buffer) :
    (CryptoBox.encrypt s mem inp out).out.data = out.data ∧
    (CryptoBox.decrypt s mem inp out).out.data = out.data ∧
    ((CryptoBox.decrypt s mem inp out).status = .Success →
      (CryptoBox.decrypt s mem inp out).inp.data =
        inp.data + encryptedSize (CryptoBox.getDecryptedSize s mem inp).2) ∧
    ((CryptoBox.decrypt s mem inp out).status ≠ .Success →
      (CryptoBox.decrypt s mem inp out).inp = inp) := by
  refine ⟨?_, ?_, ?_, ?_⟩
  · unfold CryptoBox.encrypt
    split <;> rfl
  · unfold CryptoBox.decrypt
    split
    · rfl
    · split
      · rfl
      · split
        · rfl
        · split <;> rfl
  · unfold CryptoBox.decrypt CryptoBox.getDecryptedSize
    split
    · intro h; simp at h
    · split
      · intro h; simp at h
      · split
        · intro h; simp at h
        · split
          · intro h; simp at h
          · intro _; rfl
  · unfold CryptoBox.decrypt
    split
    · intro _; rfl
    · split
      · intro _; rfl
      · split
        · intro _; rfl
        · split
          · intro _; rfl
          · intro h; simp at h

/-- **C3 (amended).** The `CryptoBox` operates on the caller's `Session` by
reference: a successful `encrypt` replaces exactly the session's
`encryptionNonce` by its increment, a successful `decrypt` replaces exactly
`decryptionNonce`, and every failing call leaves the session unchanged. -/
theorem session_shared_frame (s : Session) (mem : Bytes) (inp : input_data)
    (out : output_buffer) :
    ((CryptoBox.encrypt s mem inp out).status = .Success →
      (CryptoBox.encrypt s mem inp out).session =
        { s with encryptionNonce := incrNonce s.encryptionNonce }) ∧
    ((CryptoBox.encrypt s mem inp out).status ≠ .Success →
      (CryptoBox.encrypt s mem inp out).session = s) ∧
    ((CryptoBox.decrypt s mem inp out).status = .Success →
      (CryptoBox.decrypt s mem inp out).session =
        { s with decryptionNonce := incrNonce s.decryptionNonce }) ∧
    ((CryptoBox.decrypt s mem inp out).status ≠ .Success →
      (CryptoBox.decrypt s mem inp out).session = s) := by
  refine ⟨?_, ?_, ?_, ?_⟩
  · unfold CryptoBox.encrypt
    split
    · intro h; simp at h
    · intro _; rfl
  · unfold CryptoBox.encrypt
    split
    · intro _; rfl
    · intro h; simp at h
  · unfold CryptoBox.decrypt
    split
    · intro h; simp at h
    · split
      · intro h; simp at h
      · split
        · intro h; simp at h
        · split
          · intro h; simp at h
          · intro _; rfl
  · unfold CryptoBox.decrypt
    split
    · intro _; rfl
    · split
      · intro _; rfl
      · split
        · intro _; rfl
        · split
          · intro _; rfl
          · intro h; simp at h

/-- **C5.** With a complete record of plaintext `m` present at address `p`:
`getDecryptedSize` yields `(IncompleteInput, 0)` on fewer than 2 bytes and
`(Success, m.length)` on 2 or more (it is a pure function, touching no state);
`decrypt` on any prefix shorter than the whole record returns
`IncompleteInput` leaving all state unchanged, and a subsequent `decrypt` with
the complete record succeeds, consuming it whole and producing `m.length`
bytes. -/
theorem incomplete_input_nonfatal
    (s : Session) (mem : Bytes) (p : Nat) (m : Bytes) (out : output_buffer)
    (hrec : slice mem p (m.length + 18) = encRecord s.decryptionKey s.decryptionNonce m)
    (hm : m.length < 65536) (hout : m.length ≤ out.size) :
    (∀ sz, sz < 2 → CryptoBox.getDecryptedSize s mem { data := p, size := sz } =
      (.IncompleteInput, 0)) ∧
    (∀ sz, 2 ≤ sz → CryptoBox.getDecryptedSize s mem { data := p, size := sz } =
      (.Success, m.length)) ∧
    (∀ sz, sz < m.length + 18 →
      CryptoBox.decrypt s mem { data := p, size := sz } out =
        { status := .IncompleteInput, session := s, mem := mem,
          inp := { data := p, size := sz }, out := out }) ∧
    (CryptoBox.decrypt s mem { data := p, size := m.length + 18 } out).status = .Success ∧
    (CryptoBox.decrypt s mem { data := p, size := m.length + 18 } out).inp.size = 0 ∧
    (CryptoBox.decrypt s mem { data := p, size := m.length + 18 } out).out.size = m.length := by
  have hread2 : slice mem p 2 = toBytesN m.length 2 := by
    have hsub : slice mem p 2 = (slice mem p (m.length + 18)).take 2 := by
      unfold slice
      rw [List.take_take]
      norm_num
    rw [hsub, hrec]
    unfold encRecord
    exact take_append_of_length _ (toBytesN_length _ _)
  have hfrom2 : fromBytes (slice mem p 2) = m.length := by
    rw [hread2]
    refine fromBytes_toBytesN ?_
    have : (256 : Nat) ^ 2 = 65536 := by norm_num
    omega
  have hreadBody : slice mem (p + 2) (m.length + 16)
      = sealBox s.decryptionKey s.decryptionNonce (toBytesN m.length 2) m := by
    have hsub : slice mem (p + 2) (m.length + 16) = (slice mem p (m.length + 18)).drop 2 := by
      unfold slice
      rw [List.drop_take, List.drop_drop]
      congr 1
    rw [hsub, hrec]
    unfold encRecord
    rw [drop_append_of_length _ (toBytesN_length _ _)]
  refine ⟨?_, ?_, ?_, ?_, ?_, ?_⟩
  · intro sz hsz
    unfold CryptoBox.getDecryptedSize
    rw [if_pos hsz]
  · intro sz hsz
    unfold CryptoBox.getDecryptedSize
    dsimp only
    rw [if_neg (by omega), hfrom2]
  · intro sz hsz
    unfold CryptoBox.decrypt
    dsimp only
    by_cases h2 : sz < 2
    · rw [if_pos h2]
    · rw [if_neg h2, hfrom2, if_pos (by simp only [encryptedSize]; omega)]
  · unfold CryptoBox.decrypt
    dsimp only
    rw [if_neg (by omega), hfrom2,
        if_neg (by simp [encryptedSize]), if_neg (by omega),
        hreadBody, openBox_sealBox]
  · unfold CryptoBox.decrypt
    dsimp only
    rw [if_neg (by omega), hfrom2,
        if_neg (by simp [encryptedSize]), if_neg (by omega),
        hreadBody, openBox_sealBox]
    simp [encryptedSize]
  · unfold CryptoBox.decrypt
    dsimp only
    rw [if_neg (by omega), hfrom2,
        if_neg (by simp [encryptedSize]), if_neg (by omega),
        hreadBody, openBox_sealBox]

set_option maxRecDepth 40000 in
theorem cryptobox_roundtrip_witness :
    (CryptoBox.roundTrip ⟨[7],[8],[1],[2],[]⟩ ⟨[9],[7],[3],[1],[]⟩
      ([1,2,3] ++ List.replicate 197 0) ⟨0,3⟩ ⟨50,30⟩ ⟨100,10⟩).1.status = .Success ∧
    (CryptoBox.roundTrip ⟨[7],[8],[1],[2],[]⟩ ⟨[9],[7],[3],[1],[]⟩
      ([1,2,3] ++ List.replicate 197 0) ⟨0,3⟩ ⟨50,30⟩ ⟨100,10⟩).2.status = .Success ∧
    slice (CryptoBox.roundTrip ⟨[7],[8],[1],[2],[]⟩ ⟨[9],[7],[3],[1],[]⟩
      ([1,2,3] ++ List.replicate 197 0) ⟨0,3⟩ ⟨50,30⟩ ⟨100,10⟩).2.mem 100 3 =
      slice ([1,2,3] ++ List.replicate 197 0) 0 3 ∧
    (CryptoBox.roundTrip ⟨[7],[8],[1],[2],[]⟩ ⟨[9],[7],[3],[1],[]⟩
      ([1,2,3] ++ List.replicate 197 0) ⟨0,3⟩ ⟨50,30⟩ ⟨100,10⟩).1.session.encryptionNonce =
    (CryptoBox.roundTrip ⟨[7],[8],[1],[2],[]⟩ ⟨[9],[7],[3],[1],[]⟩
      ([1,2,3] ++ List.replicate 197 0) ⟨0,3⟩ ⟨50,30⟩ ⟨100,10⟩).2.session.decryptionNonce := by
  have h := cryptobox_roundtrip ⟨[7],[8],[1],[2],[]⟩ ⟨[9],[7],[3],[1],[]⟩
    ([1,2,3] ++ List.replicate 197 0) ⟨0,3⟩ ⟨50,30⟩ ⟨100,10⟩
    (by decide) (by decide) (by decide) (by decide) (by decide) (by decide) (by decide) (by decide)
  exact ⟨h.1, h.2.2.1, h.2.2.2.1, h.2.2.2.2.2.2.2⟩

set_option maxRecDepth 40000 in
/-- **C3 (counterexample).** The claim "no call to encrypt or decrypt on the
CryptoBox changes any field of the caller's original Session" is false: a
successful `encrypt` changes the session's `encryptionNonce`, exactly as the
repository's test asserts (`session1.encryptionNonce != originalNonce`,
SecretHandshakeTests.cc line 176). -/
theorem session_not_copied :
    (CryptoBox.encrypt ⟨[1],[2],[3],[4],[]⟩ (List.replicate 40 7) ⟨0,2⟩ ⟨5,25⟩).status =
      .Success ∧
    ¬((CryptoBox.encrypt ⟨[1],[2],[3],[4],[]⟩ (List.replicate 40 7) ⟨0,2⟩ ⟨5,25⟩).session =
      ⟨[1],[2],[3],[4],[]⟩) := by decide

set_option maxRecDepth 40000 in
theorem session_shared_frame_witness :
    (CryptoBox.encrypt ⟨[1],[2],[3],[4],[]⟩ (List.replicate 40 7) ⟨0,2⟩ ⟨5,25⟩).status =
      .Success ∧
    (CryptoBox.encrypt ⟨[1],[2],[3],[4],[]⟩ (List.replicate 40 7) ⟨0,2⟩ ⟨5,25⟩).session =
      ⟨[1],[2],incrNonce [3],[4],[]⟩ ∧
    (CryptoBox.decrypt ⟨[9],[2],[6],[4],[]⟩ (encRecord [2] [4] [5] ++ List.replicate 50 0)
      ⟨0,19⟩ ⟨30,10⟩).status = .Success ∧
    (CryptoBox.decrypt ⟨[9],[2],[6],[4],[]⟩ (encRecord [2] [4] [5] ++ List.replicate 50 0)
      ⟨0,19⟩ ⟨30,10⟩).session = ⟨[9],[2],[6],incrNonce [4],[]⟩ := by
  refine ⟨by decide, ?_, by decide, ?_⟩
  · exact (session_shared_frame ⟨[1],[2],[3],[4],[]⟩ (List.replicate 40 7) ⟨0,2⟩
      ⟨5,25⟩).1 (by decide)
  · exact (session_shared_frame ⟨[9],[2],[6],[4],[]⟩
      (encRecord [2] [4] [5] ++ List.replicate 50 0) ⟨0,19⟩ ⟨30,10⟩).2.2.1 (by decide)

set_option maxRecDepth 40000 in
theorem encrypt_size_contract_witness :
    encryptedSize 44 = 62 ∧
    CryptoBox.encrypt ⟨[1],[2],[3],[4],[]⟩ (List.replicate 120 1) ⟨0,44⟩ ⟨50,0⟩ =
      { status := .OutTooSmall, session := ⟨[1],[2],[3],[4],[]⟩,
        mem := List.replicate 120 1, out := ⟨50,0⟩ } ∧
    CryptoBox.encrypt ⟨[1],[2],[3],[4],[]⟩ (List.replicate 120 1) ⟨0,44⟩ ⟨50,44⟩ =
      { status := .OutTooSmall, session := ⟨[1],[2],[3],[4],[]⟩,
        mem := List.replicate 120 1, out := ⟨50,44⟩ } ∧
    (CryptoBox.encrypt ⟨[1],[2],[3],[4],[]⟩ (List.replicate 120 1) ⟨0,44⟩ ⟨50,62⟩).status =
      .Success ∧
    (CryptoBox.encrypt ⟨[1],[2],[3],[4],[]⟩ (List.replicate 120 1) ⟨0,44⟩ ⟨50,62⟩).out.size =
      62 ∧
    ¬((CryptoBox.encrypt ⟨[1],[2],[3],[4],[]⟩ (List.replicate 120 1) ⟨0,44⟩
      ⟨50,62⟩).session.encryptionNonce = [3]) := by
  have h0 := encrypt_size_contract ⟨[1],[2],[3],[4],[]⟩ (List.replicate 120 1) ⟨0,44⟩
    ⟨50,0⟩ (by decide) (by decide)
  have h1 := encrypt_size_contract ⟨[1],[2],[3],[4],[]⟩ (List.replicate 120 1) ⟨0,44⟩
    ⟨50,44⟩ (by decide) (by decide)
  have h2 := encrypt_size_contract ⟨[1],[2],[3],[4],[]⟩ (List.replicate 120 1) ⟨0,44⟩
    ⟨50,62⟩ (by decide) (by decide)
  obtain ⟨hs, ho, hn⟩ := h2.2.2 (by decide)
  exact ⟨h0.1, h0.2.1 (by decide), h1.2.1 (by decide), hs, ho, hn⟩

set_option maxRecDepth 40000 in
theorem incomplete_input_nonfatal_witness :
    CryptoBox.getDecryptedSize ⟨[9],[2],[6],[4],[]⟩
      (List.replicate 10 9 ++ encRecord [2] [4] [1,2,3] ++ List.replicate 20 0)
      ⟨10, 1⟩ = (.IncompleteInput, 0) ∧
    CryptoBox.getDecryptedSize ⟨[9],[2],[6],[4],[]⟩
      (List.replicate 10 9 ++ encRecord [2] [4] [1,2,3] ++ List.replicate 20 0)
      ⟨10, 2⟩ = (.Success, 3) ∧
    CryptoBox.decrypt ⟨[9],[2],[6],[4],[]⟩
      (List.replicate 10 9 ++ encRecord [2] [4] [1,2,3] ++ List.replicate 20 0)
      ⟨10, 20⟩ ⟨40, 5⟩ =
      { status := .IncompleteInput, session := ⟨[9],[2],[6],[4],[]⟩,
        mem := List.replicate 10 9 ++ encRecord [2] [4] [1,2,3] ++ List.replicate 20 0,
        inp := ⟨10, 20⟩, out := ⟨40, 5⟩ } ∧
    (CryptoBox.decrypt ⟨[9],[2],[6],[4],[]⟩
      (List.replicate 10 9 ++ encRecord [2] [4] [1,2,3] ++ List.replicate 20 0)
      ⟨10, 21⟩ ⟨40, 5⟩).status = .Success := by
  have h := incomplete_input_nonfatal ⟨[9],[2],[6],[4],[]⟩
    (List.replicate 10 9 ++ encRecord [2] [4] [1,2,3] ++ List.replicate 20 0)
    10 [1,2,3] ⟨40, 5⟩ (by decide) (by decide) (by decide)
  exact ⟨h.1 1 (by decide), h.2.1 2 (by decide), h.2.2.1 20 (by decide), h.2.2.2.1⟩

set_option maxRecDepth 40000 in
theorem pointer_frame_witness :
    (CryptoBox.decrypt ⟨[9],[2],[6],[4],[]⟩
      (List.replicate 10 9 ++ encRecord [2] [4] [1,2,3] ++ List.replicate 20 0)
      ⟨10, 21⟩ ⟨40, 5⟩).status = .Success ∧
    (CryptoBox.decrypt ⟨[9],[2],[6],[4],[]⟩
      (List.replicate 10 9 ++ encRecord [2] [4] [1,2,3] ++ List.replicate 20 0)
      ⟨10, 21⟩ ⟨40, 5⟩).inp.data =
      10 + encryptedSize (CryptoBox.getDecryptedSize ⟨[9],[2],[6],[4],[]⟩
        (List.replicate 10 9 ++ encRecord [2] [4] [1,2,3] ++ List.replicate 20 0) ⟨10, 21⟩).2 := by
  refine ⟨by decide, ?_⟩
  exact (pointer_frame ⟨[9],[2],[6],[4],[]⟩
    (List.replicate 10 9 ++ encRecord [2] [4] [1,2,3] ++ List.replicate 20 0)
    ⟨10, 21⟩ ⟨40, 5⟩).2.2.1 (by decide)

theorem recordsOf_append (key nonce : Bytes) (a b : List Bytes) :
    recordsOf key nonce (a ++ b) =
      recordsOf key nonce a ++ recordsOf key (nonceAfter nonce a) b := by
  induction a generalizing nonce with
  | nil => simp [recordsOf, nonceAfter]
  | cons m ms ih =>
    show encRecord key nonce m ++ recordsOf key (incrNonce nonce) (ms ++ b) = _
    rw [ih]
    simp [recordsOf, nonceAfter, List.append_assoc]

theorem nonceAfter_append (nonce : Bytes) (a b : List Bytes) :
    nonceAfter nonce (a ++ b) = nonceAfter (nonceAfter nonce a) b := by
  induction a generalizing nonce with
  | nil => simp [nonceAfter]
  | cons m ms ih =>
    show nonceAfter (incrNonce nonce) (ms ++ b) = _
    rw [ih]
    rfl

theorem prefix_take_two {p l : Bytes} (h : p <+: l) (h2 : 2 ≤ p.length) :
    p.take 2 = l.take 2 := by
  rw [List.prefix_iff_eq_take.mp h, List.take_take]
  congr 1
  omega

/-- The front record of a record stream determines the Stuck analysis. -/
theorem records_head_take_two (key nonce : Bytes) (m : Bytes) (ms : List Bytes)
    (hm : m.length < 65536) :
    (recordsOf key nonce (m :: ms)).take 2 = toBytesN m.length 2 ∧
    fromBytes ((recordsOf key nonce (m :: ms)).take 2) = m.length := by
  have h1 : (recordsOf key nonce (m :: ms)).take 2 = toBytesN m.length 2 := by
    show ((encRecord key nonce m ++ _).take 2) = _
    rw [List.take_append_of_le_length (by simp)]
    unfold encRecord
    rw [List.take_append_of_le_length (by simp)]
    rw [List.take_of_length_le (by simp)]
  refine ⟨h1, ?_⟩
  rw [h1]
  refine fromBytes_toBytesN ?_
  have : (256 : Nat) ^ 2 = 65536 := by norm_num
  omega

theorem records_not_stuck {key nonce : Bytes} {ms : List Bytes}
    (hne : ms ≠ []) (hlen : ∀ m ∈ ms, m.length < 65536) :
    ¬ Stuck (recordsOf key nonce ms) := by
  match ms, hne with
  | m :: ms', _ =>
    obtain ⟨h1, h2⟩ := records_head_take_two key nonce m ms'
      (hlen m (List.mem_cons_self _ _))
    intro hstuck
    have hlen1 : (recordsOf key nonce (m :: ms')).length = (m.length + 18) +
        (recordsOf key (incrNonce nonce) ms').length := by
      show (encRecord key nonce m ++ _).length = _
      simp
    rcases hstuck with h | h
    · omega
    · rw [h2] at h
      omega

theorem drain_prefix (key : Bytes) (ms : List Bytes) :
    ∀ (nonce p : Bytes) (d : DecryptionStream) (fuel : Nat),
    d.corrupt = false → d.session.decryptionKey = key → d.session.decryptionNonce = nonce →
    d.inBuf = p → p <+: recordsOf key nonce ms → (∀ m ∈ ms, m.length < 65536) →
    p.length ≤ fuel →
    ∃ msA msB q,
      ms = msA ++ msB ∧
      p = recordsOf key nonce msA ++ q ∧
      q <+: recordsOf key (nonceAfter nonce msA) msB ∧
      Stuck q ∧ (msB = [] → q = []) ∧
      DecryptionStream.drainF fuel d =
        { session := { d.session with decryptionNonce := nonceAfter nonce msA },
          inBuf := q, clearBuf := d.clearBuf ++ msA.flatten, corrupt := false } := by
  induction ms with
  | nil =>
    intro nonce p d fuel hc hk hn hbuf hpre hlen hfuel
    have hp : p = [] := by
      have := List.prefix_iff_eq_take.mp hpre
      simpa [recordsOf] using this
    subst hp
    have hdrain : DecryptionStream.drainF fuel d = d := by
      cases fuel with
      | zero => rfl
      | succ k =>
        unfold DecryptionStream.drainF
        rw [if_neg (by rw [hc]; simp), if_pos (by rw [hbuf]; simp)]
    refine ⟨[], [], [], rfl, by simp [recordsOf], by simp [recordsOf, nonceAfter],
      Or.inl (by simp), fun _ => rfl, ?_⟩
    rw [hdrain]
    have hsess : { d.session with decryptionNonce := nonceAfter nonce [] } = d.session := by
      show { d.session with decryptionNonce := nonce } = d.session
      rw [← hn]
    rw [hsess]
    obtain ⟨sess, ib, cb, cor⟩ := d
    simp only at hbuf hc
    rw [hbuf, hc]
    simp
  | cons m ms' ih =>
    intro nonce p d fuel hc hk hn hbuf hpre hlen hfuel
    have hm : m.length < 65536 := hlen m (List.mem_cons_self _ _)
    have hff : fromBytes (toBytesN m.length 2) = m.length := by
      refine fromBytes_toBytesN ?_
      have : (256 : Nat) ^ 2 = 65536 := by norm_num
      omega
    have hrec : recordsOf key nonce (m :: ms') =
        encRecord key nonce m ++ recordsOf key (incrNonce nonce) ms' := rfl
    have hr1len : (encRecord key nonce m).length = m.length + 18 := encRecord_length _ _ _
    obtain ⟨ht2, hf2⟩ := records_head_take_two key nonce m ms' hm
    by_cases hcase : p.length < m.length + 18
    · -- `p` is a strict prefix of the first record: drain is stuck.
      have hstuck : Stuck p := by
        by_cases h2 : p.length < 2
        · exact Or.inl h2
        · refine Or.inr ?_
          rw [prefix_take_two hpre (by omega), ht2, hff]
          exact hcase
      have hdrain : DecryptionStream.drainF fuel d = d := by
        cases fuel with
        | zero => rfl
        | succ k =>
          unfold DecryptionStream.drainF
          rw [if_neg (by rw [hc]; simp)]
          by_cases h2 : p.length < 2
          · rw [if_pos (by rw [hbuf]; exact h2)]
          · rw [if_neg (by rw [hbuf]; exact h2)]
            rw [if_pos]
            rw [hbuf, prefix_take_two hpre (by omega), ht2, hff]
            exact hcase
      refine ⟨[], m :: ms', p, rfl, by simp [recordsOf], ?_, hstuck, by simp, ?_⟩
      · simpa [nonceAfter] using hpre
      · rw [hdrain]
        have hsess : { d.session with decryptionNonce := nonceAfter nonce [] } = d.session := by
          show { d.session with decryptionNonce := nonce } = d.session
          rw [← hn]
        rw [hsess]
        obtain ⟨sess, ib, cb, cor⟩ := d
        simp only at hbuf hc
        rw [hbuf, hc]
        simp [recordsOf]
    · -- a complete first record sits at the front of `p`: drain consumes it.
      have hge : m.length + 18 ≤ p.length := by omega
      have hptake : p.take (m.length + 18) = encRecord key nonce m := by
        rw [List.prefix_iff_eq_take.mp hpre, List.take_take,
          Nat.min_eq_left (by omega), hrec]
        exact take_append_of_length _ hr1len
      have hpsplit : p = encRecord key nonce m ++ p.drop (m.length + 18) := by
        conv_lhs => rw [← List.take_append_drop (m.length + 18) p]
        rw [hptake]
      have hp'pre : p.drop (m.length + 18) <+: recordsOf key (incrNonce nonce) ms' := by
        obtain ⟨t, ht⟩ := hpre
        refine ⟨t, ?_⟩
        rw [hrec] at ht
        have : encRecord key nonce m ++ (p.drop (m.length + 18) ++ t) =
            encRecord key nonce m ++ recordsOf key (incrNonce nonce) ms' := by
          rw [← List.append_assoc, ← hpsplit]
          exact ht
        exact List.append_cancel_left this
      cases fuel with
      | zero => omega
      | succ k =>
        have hstep : DecryptionStream.drainF (k + 1) d = DecryptionStream.drainF k
            { session := { d.session with decryptionNonce := incrNonce nonce },
              inBuf := p.drop (m.length + 18),
              clearBuf := d.clearBuf ++ m,
              corrupt := false } := by
          have hpt2 : p.take 2 = toBytesN m.length 2 := by
            rw [prefix_take_two hpre (by omega)]
            exact ht2
          have hbody : (p.drop 2).take (m.length + 16) =
              sealBox key nonce (toBytesN m.length 2) m := by
            conv_lhs => rw [hpsplit]
            rw [List.drop_append_of_le_length (by omega)]
            unfold encRecord
            rw [drop_append_of_length _ (toBytesN_length _ _)]
            rw [List.take_append_of_le_length (by simp)]
            exact List.take_of_length_le (by simp)
          conv_lhs => unfold DecryptionStream.drainF
          rw [if_neg (by rw [hc]; simp)]
          rw [if_neg (by rw [hbuf]; omega)]
          rw [hbuf, hpt2, hff]
          rw [if_neg (by omega)]
          rw [hbody, hk, hn, openBox_sealBox]
        obtain ⟨msA', msB', q, hms, hpdec, hqpre, hqstuck, hqnil, hdrain'⟩ :=
          ih (incrNonce nonce) (p.drop (m.length + 18))
            { session := { d.session with decryptionNonce := incrNonce nonce },
              inBuf := p.drop (m.length + 18),
              clearBuf := d.clearBuf ++ m,
              corrupt := false } k rfl hk rfl rfl hp'pre
            (fun x hx => hlen x (List.mem_cons_of_mem _ hx))
            (by simp; omega)
        refine ⟨m :: msA', msB', q, ?_, ?_, ?_, hqstuck, hqnil, ?_⟩
        · rw [hms]
          rfl
        · conv_lhs => rw [hpsplit]
          rw [hpdec]
          show _ = (encRecord key nonce m ++ recordsOf key (incrNonce nonce) msA') ++ q
          rw [List.append_assoc]
        · exact hqpre
        · rw [hstep, hdrain']
          simp only [nonceAfter, List.flatten_cons, List.append_assoc]

theorem enc_pushMany (ms : List Bytes) :
    ∀ e : EncryptionStream, e.pending = [] → (∀ m ∈ ms, m ≠ []) →
    (EncryptionStream.pushMany e ms).outBuf =
      e.outBuf ++ recordsOf e.session.encryptionKey e.session.encryptionNonce ms ∧
    (EncryptionStream.pushMany e ms).pending = [] ∧
    (EncryptionStream.pushMany e ms).session =
      { e.session with encryptionNonce := nonceAfter e.session.encryptionNonce ms } := by
  induction ms with
  | nil =>
    intro e he _
    refine ⟨by simp [recordsOf, EncryptionStream.pushMany], he, rfl⟩
  | cons m ms' ih =>
    intro e he hne
    have hpush : e.push m =
        { session := { e.session with encryptionNonce := incrNonce e.session.encryptionNonce },
          pending := [],
          outBuf := e.outBuf ++
            encRecord e.session.encryptionKey e.session.encryptionNonce m } := by
      unfold EncryptionStream.push EncryptionStream.pushPartial EncryptionStream.flush
      rw [he]
      rw [if_neg (by simpa using hne m (List.mem_cons_self _ _))]
      simp
    have hmany : EncryptionStream.pushMany e (m :: ms') =
        EncryptionStream.pushMany (e.push m) ms' := rfl
    obtain ⟨h1, h2, h3⟩ := ih (e.push m) (by rw [hpush])
      (fun x hx => hne x (List.mem_cons_of_mem _ hx))
    rw [hmany, h1, h2, h3, hpush]
    refine ⟨by simp [recordsOf, List.append_assoc], rfl, rfl⟩

theorem dec_pushMany_chunks (key : Bytes) (chunks : List Bytes) :
    ∀ (ms : List Bytes) (nonce : Bytes) (d : DecryptionStream),
    d.corrupt = false → d.session.decryptionKey = key → d.session.decryptionNonce = nonce →
    Stuck d.inBuf → (∀ m ∈ ms, m.length < 65536) →
    d.inBuf ++ chunks.flatten = recordsOf key nonce ms →
    (DecryptionStream.pushMany d chunks).clearBuf = d.clearBuf ++ ms.flatten ∧
    (DecryptionStream.pushMany d chunks).inBuf = [] ∧
    (DecryptionStream.pushMany d chunks).corrupt = false ∧
    (DecryptionStream.pushMany d chunks).session =
      { d.session with decryptionNonce := nonceAfter nonce ms } := by
  induction chunks with
  | nil =>
    intro ms nonce d hc hk hn hstuck hlen heq
    simp only [List.flatten_nil, List.append_nil] at heq
    have hms : ms = [] := by
      by_contra hne
      exact records_not_stuck hne hlen (heq ▸ hstuck)
    subst hms
    simp only [recordsOf] at heq
    have hmany : DecryptionStream.pushMany d [] = d := rfl
    refine ⟨by rw [hmany]; simp, by rw [hmany]; exact heq, by rw [hmany]; exact hc, ?_⟩
    rw [hmany]
    show d.session = { d.session with decryptionNonce := nonce }
    rw [← hn]
  | cons c cs ih =>
    intro ms nonce d hc hk hn hstuck hlen heq
    have hpre : (d.inBuf ++ c) <+: recordsOf key nonce ms := by
      refine ⟨cs.flatten, ?_⟩
      rw [← heq]
      simp [List.append_assoc]
    obtain ⟨msA, msB, q, hms, hpdec, hqpre, hqstuck, hqnil, hdrain⟩ :=
      drain_prefix key ms nonce (d.inBuf ++ c) { d with inBuf := d.inBuf ++ c }
        (d.inBuf ++ c).length hc hk hn rfl hpre hlen le_rfl
    have hd2 : (DecryptionStream.push d c).2 =
        { session := { d.session with decryptionNonce := nonceAfter nonce msA },
          inBuf := q, clearBuf := d.clearBuf ++ msA.flatten, corrupt := false } := by
      show DecryptionStream.drain { d with inBuf := d.inBuf ++ c } = _
      unfold DecryptionStream.drain
      exact hdrain
    have hmany : DecryptionStream.pushMany d (c :: cs) =
        DecryptionStream.pushMany (DecryptionStream.push d c).2 cs := rfl
    have heq2 : q ++ cs.flatten = recordsOf key (nonceAfter nonce msA) msB := by
      have h1 : (d.inBuf ++ c) ++ cs.flatten =
          recordsOf key nonce msA ++ recordsOf key (nonceAfter nonce msA) msB := by
        have : d.inBuf ++ (c :: cs).flatten = recordsOf key nonce (msA ++ msB) := by
          rw [← hms]; exact heq
        rw [recordsOf_append] at this
        rw [← this]
        simp [List.append_assoc]
      rw [hpdec] at h1
      rw [List.append_assoc] at h1
      exact List.append_cancel_left h1
    obtain ⟨g1, g2, g3, g4⟩ := ih msB (nonceAfter nonce msA) (DecryptionStream.push d c).2
      (by rw [hd2]) (by rw [hd2]; exact hk) (by rw [hd2]) (by rw [hd2]; exact hqstuck)
      (fun x hx => hlen x (by rw [hms]; exact List.mem_append_right _ hx))
      (by rw [hd2]; exact heq2)
    rw [hmany, g1, g2, g3, g4, hd2]
    refine ⟨?_, rfl, rfl, ?_⟩
    · rw [hms]
      simp [List.append_assoc]
    · show _ = { d.session with decryptionNonce := nonceAfter nonce ms }
      rw [hms, nonceAfter_append]

/-- **C9.** `pushPartial` appends to the pending plaintext without producing
ciphertext (`bytesAvailable` unchanged); `flush` of a non-empty pending buffer
emits exactly one record, adding `pending.length + 18` available bytes
(compact-mode overhead); the encryption stream emits exactly the record
sequence of the pushed messages; and for every splitting of that ciphertext
into chunks pushed to a `DecryptionStream` over the crossed session — chunks
smaller than a header, straddling records, or several records before a pull —
the total plaintext pulled equals the total plaintext pushed, in order. -/
theorem stream_roundtrip (s1 s2 : Session) (ms chunks : List Bytes)
    (hk : s2.decryptionKey = s1.encryptionKey)
    (hn : s2.decryptionNonce = s1.encryptionNonce)
    (hne : ∀ m ∈ ms, m ≠ [])
    (hlen : ∀ m ∈ ms, m.length < 65536)
    (hchunks : chunks.flatten = recordsOf s1.encryptionKey s1.encryptionNonce ms) :
    (∀ (e : EncryptionStream) (bs : Bytes),
      (e.pushPartial bs).bytesAvailable = e.bytesAvailable) ∧
    (∀ e : EncryptionStream, e.pending ≠ [] →
      e.flush.bytesAvailable = e.bytesAvailable + (e.pending.length + 18)) ∧
    ((EncryptionStream.init s1).pushMany ms).outBuf =
      recordsOf s1.encryptionKey s1.encryptionNonce ms ∧
    ((DecryptionStream.init s2).pushMany chunks).clearBuf = ms.flatten ∧
    ((DecryptionStream.init s2).pushMany chunks).inBuf = [] ∧
    ((DecryptionStream.init s2).pushMany chunks).corrupt = false ∧
    (((DecryptionStream.init s2).pushMany chunks).pull ms.flatten.length).1 = ms.flatten := by
  obtain ⟨he1, _, _⟩ := enc_pushMany ms (EncryptionStream.init s1) rfl hne
  obtain ⟨hd1, hd2, hd3, _⟩ := dec_pushMany_chunks s1.encryptionKey chunks ms
    s1.encryptionNonce (DecryptionStream.init s2) rfl hk hn (Or.inl (by simp [DecryptionStream.init]))
    hlen (by simpa [DecryptionStream.init] using hchunks)
  refine ⟨fun e bs => rfl, ?_, ?_, ?_, hd2, hd3, ?_⟩
  · intro e hpend
    unfold EncryptionStream.flush EncryptionStream.bytesAvailable
    rw [if_neg hpend]
    simp
  · simpa [EncryptionStream.init] using he1
  · simpa [DecryptionStream.init] using hd1
  · unfold DecryptionStream.pull
    rw [hd1]
    simp [DecryptionStream.init]

set_option maxRecDepth 40000 in
theorem stream_roundtrip_witness :
    ([(recordsOf [7] [1] [[1,2],[3]]).take 5,
      ((recordsOf [7] [1] [[1,2],[3]]).drop 5).take 21,
      ((recordsOf [7] [1] [[1,2],[3]]).drop 5).drop 21] : List Bytes).flatten =
      recordsOf [7] [1] [[1,2],[3]] ∧
    ((DecryptionStream.init ⟨[9],[7],[3],[1],[]⟩).pushMany
      [(recordsOf [7] [1] [[1,2],[3]]).take 5,
       ((recordsOf [7] [1] [[1,2],[3]]).drop 5).take 21,
       ((recordsOf [7] [1] [[1,2],[3]]).drop 5).drop 21]).clearBuf = [1,2,3] ∧
    (((DecryptionStream.init ⟨[9],[7],[3],[1],[]⟩).pushMany
      [(recordsOf [7] [1] [[1,2],[3]]).take 5,
       ((recordsOf [7] [1] [[1,2],[3]]).drop 5).take 21,
       ((recordsOf [7] [1] [[1,2],[3]]).drop 5).drop 21]).pull 3).1 = [1,2,3] := by
  have h := stream_roundtrip ⟨[7],[8],[1],[2],[]⟩ ⟨[9],[7],[3],[1],[]⟩
    [[1,2],[3]]
    [(recordsOf [7] [1] [[1,2],[3]]).take 5,
     ((recordsOf [7] [1] [[1,2],[3]]).drop 5).take 21,
     ((recordsOf [7] [1] [[1,2],[3]]).drop 5).drop 21]
    (by decide) (by decide) (by decide) (by decide) (by decide)
  exact ⟨by decide, h.2.2.2.1, h.2.2.2.2.2.2⟩

/-- **C8.** `Context::appIDFromString` yields a 32-byte buffer whose first
`min(len(s), 32)` bytes are the bytes of `s` and whose remaining bytes are
zero; concretely `""` gives 32 zero bytes, `"ABCDEF"` gives those 6 bytes plus
26 zeros, and a 44-byte string is truncated to its first 32 bytes. -/
theorem appIDFromString_spec :
    (∀ s : String,
      (Context.appIDFromString s).length = 32 ∧
      (Context.appIDFromString s).take (min (strBytes s).length 32) =
        (strBytes s).take (min (strBytes s).length 32) ∧
      (Context.appIDFromString s).drop (min (strBytes s).length 32) =
        List.replicate (32 - (strBytes s).length) 0) ∧
    Context.appIDFromString "" = List.replicate 32 0 ∧
    Context.appIDFromString "ABCDEF" = [65,66,67,68,69,70] ++ List.replicate 26 0 ∧
    Context.appIDFromString "A string that is too long to fit in an AppID" =
      (strBytes "A string that is too long to fit in an AppID").take 32 := by
  refine ⟨?_, by decide, by decide, by decide⟩
  intro s
  unfold Context.appIDFromString
  by_cases hL : (strBytes s).length ≤ 32
  · have htk : (strBytes s).take 32 = strBytes s := List.take_of_length_le hL
    rw [htk]
    have hmin : min (strBytes s).length 32 = (strBytes s).length := by omega
    rw [hmin]
    refine ⟨by simp; omega, ?_, ?_⟩
    · rw [List.take_append_of_le_length le_rfl]
    · exact drop_len_append _ _
  · have hmin : min (strBytes s).length 32 = 32 := by omega
    have hz : 32 - (strBytes s).length = 0 := by omega
    rw [hmin, hz]
    simp only [List.replicate_zero, List.append_nil]
    have hlen : ((strBytes s).take 32).length = 32 := by
      simp
      omega
    refine ⟨hlen, by simp [List.take_take], ?_⟩
    exact List.drop_eq_nil_of_le (by rw [hlen])

end SHS
